import Mathlib

/-!
# Verification of the `pull` git-status reader

Shallow embedding of the repository's Go sources (`git/repository.go`,
`git/status.go`) together with the parts of the third-party go-git v4
library (`gopkg.in/src-d/go-git.v4`) that the code delegates to:
reference names, the commit object store, flat tree snapshots and tree
diffing.  Hashes are modelled as `Nat`, reference names as `String`.
-/

namespace Pull

/-- A tree snapshot: the files of a commit, as a flat association list from
full slash-separated path to the hash of the blob stored at that path.
Models `object.Tree` from go-git, flattened to file granularity (the
granularity at which `object.DiffTree` reports changes). -/
abbrev Tree := List (String × Nat)

/-- A commit object.  Models go-git's `object.Commit`: `Message` and
`ParentHashes` are the fields of the same name; `tree` is the commit's
resolved tree snapshot (the Go code obtains it via `commit.Tree()`). -/
structure Commit where
  Message : String
  ParentHashes : List Nat
  tree : Tree
deriving DecidableEq

/-- A (hash) reference.  Models go-git's `plumbing.Reference` after
resolution: a full reference name (e.g. `refs/heads/master`, or `HEAD`
for a detached checkout) together with the hash it points at. -/
structure Reference where
  name : String
  hash : Nat
deriving DecidableEq

/-- An annotated tag object in the object store.  Models go-git's
`object.Tag`: it has its own hash (the key in the store) and points at a
target object, typically a commit. -/
structure TagObject where
  target : Nat
deriving DecidableEq

/-- The opened on-disk repository.  Models the slice of go-git's
`git.Repository` that the code reads: the commit object store, the
references under `refs/tags/`, the annotated tag objects, and the
resolved HEAD reference (`none` when HEAD cannot be resolved, e.g. an
unborn branch, where `r.Head()` returns "reference not found"). -/
structure GitRepo where
  commits : List (Nat × Commit)
  tagRefs : List Reference
  tagObjects : List (Nat × TagObject)
  headRef : Option Reference
deriving DecidableEq

/-- `repo.CommitObject(hash)` from go-git: look the hash up in the commit
object store. -/
def GitRepo.CommitObject (r : GitRepo) (h : Nat) : Option Commit :=
  r.commits.lookup h

/-- One `fmt.Sscanf` rule of go-git v4 `plumbing.RefRevParseRules`, of the
shape `<prefix>%s`: match the literal prefix character by character,
then capture the remainder with `%s`.  Reference names contain no
whitespace, so the greedy `%s` captures the whole remainder, and the
scan fails exactly when the prefix does not match or nothing follows
it (`%s` at end of input reports an error and writes nothing). -/
def scanRule : List Char → List Char → Option (List Char)
  | [], [] => none
  | [], c :: cs => some (c :: cs)
  | _ :: _, [] => none
  | p :: ps, c :: cs => if c = p then scanRule ps cs else none

/-- Modelled from go-git v4 `plumbing.ReferenceName.Short`: starting from
the full name, every rule of `RefRevParseRules` (`refs/%s`,
`refs/tags/%s`, `refs/heads/%s`, `refs/remotes/%s`) that scans
successfully overwrites the result, so the last matching rule wins.
The fifth rule, `refs/remotes/%s/HEAD`, never scans a whitespace-free
name completely (the greedy `%s` leaves nothing for the trailing
`/HEAD` literal) and on `refs/remotes/...` names its partial `%s` write
repeats what `refs/remotes/%s` already produced, so it never changes
the result and is omitted here.  The repository's own test suite pins
this behaviour: branch `feature/test` reports as `feature/test`. -/
def shortName (n : String) : String :=
  let s := n.data
  let r1 := match scanRule "refs/".data s with
    | some r => r
    | none => s
  let r2 := match scanRule "refs/tags/".data s with
    | some r => r
    | none => r1
  let r3 := match scanRule "refs/heads/".data s with
    | some r => r
    | none => r2
  let r4 := match scanRule "refs/remotes/".data s with
    | some r => r
    | none => r3
  ⟨r4⟩

/-- Modelled from go-git v4 `plumbing.ReferenceName.IsBranch`: whether the
full name starts with `refs/heads/`. -/
def isBranchName (n : String) : Bool := List.isPrefixOf "refs/heads/".data n.data

/-- `type Repository struct { repo *git.Repository; head *plumbing.Reference }`
from `git/repository.go`. -/
structure Repository where
  repo : GitRepo
  head : Reference
deriving DecidableEq

/-- `func New(path string) (*Repository, error)` from `git/repository.go`:
`git.PlainOpen(path)` (fails when no repository exists at `path`, modelled
by the filesystem map `fs` returning `none`), then `r.Head()` (fails when
HEAD cannot be resolved), then wraps both in a `Repository`. -/
def New (fs : String → Option GitRepo) (path : String) : Except String Repository :=
  match fs path with
  | none => Except.error "repository does not exist"
  | some r =>
    match r.headRef with
    | none => Except.error "reference not found"
    | some ref => Except.ok ⟨r, ref⟩

/-- `func (repo *Repository) Branch() string` from `git/repository.go`:
the short name of HEAD's reference name when it is a branch, `""`
otherwise. -/
def Repository.Branch (repo : Repository) : String :=
  if isBranchName repo.head.name then shortName repo.head.name else ""

/-- One entry of go-git's `object.Changes`: the pre-image file name
(`from.Name`, `none` when `from` is nil) and the post-image file name
(`to.Name`, `none` when `to` is nil) of a single change. -/
structure Change where
  fromFile : Option String
  toFile : Option String
deriving DecidableEq

/-- Look a path up in a tree snapshot. -/
def treeLookup (t : Tree) (p : String) : Option Nat := t.lookup p

/-- Modelled from go-git v4 `object.DiffTree` (no rename detection) on
flat tree snapshots: one change per path at which the two trees differ;
the pre-image file is present exactly when the path exists in the
from-tree `t1`, the post-image file exactly when it exists in the
to-tree `t2`. -/
def diffTrees (t1 t2 : Tree) : List Change :=
  ((t1.map Prod.fst ++ t2.map Prod.fst).dedup).filterMap fun p =>
    if treeLookup t1 p = treeLookup t2 p then none
    else some ⟨if (treeLookup t1 p).isSome then some p else none,
               if (treeLookup t2 p).isSome then some p else none⟩

/-- Insertion into the `fileset` map of `filesTouched`: a map key is added
once, so insertion of an already-present name is a no-op. -/
def insertName (s : List String) (n : String) : List String :=
  if n ∈ s then s else s ++ [n]

/-- Processing of one `change` in the loop of `filesTouched`: record
`from.Name` when `from` is non-nil, then `to.Name` when `to` is non-nil. -/
def addChange (s : List String) (c : Change) : List String :=
  let s1 := match c.fromFile with
    | some n => insertName s n
    | none => s
  match c.toFile with
  | some n => insertName s1 n
  | none => s1

/-- `sort.Strings` from the Go standard library: sort ascending by the
byte-wise (equivalently, for UTF-8, code-point lexicographic) order. -/
def sortStrings (l : List String) : List String := l.insertionSort (· ≤ ·)

/-- `func filesTouched(parent *object.Tree, child *object.Tree) []string`
from `git/repository.go`: diff `child` against nothing when `parent` is
nil (`child.Diff(nil)`, i.e. `child` as from-tree and an empty to-tree),
otherwise `parent.Diff(child)`; collect the pre- and post-image file
names of every change into a set; return them sorted. -/
def filesTouched (parent : Option Tree) (child : Tree) : List String :=
  let changes : List Change :=
    match parent with
    | none => diffTrees child []
    | some p => diffTrees p child
  sortStrings (changes.foldl addChange [])

/-- `func (repo *Repository) Files() []string` from `git/repository.go`:
resolve the HEAD commit (panic, modelled `none`, when absent), take its
tree, take the first parent via `Parents().Next()` (`io.EOF`, i.e. no
parent, when the parent list is empty; panic when the parent hash is
dangling), and hand both trees to `filesTouched`. -/
def Repository.Files (repo : Repository) : Option (List String) :=
  match repo.repo.CommitObject repo.head.hash with
  | none => none
  | some headObject =>
    let headTree := headObject.tree
    match headObject.ParentHashes with
    | [] => some (filesTouched none headTree)
    | p :: _ =>
      match repo.repo.CommitObject p with
      | none => none
      | some parentObject => some (filesTouched (some parentObject.tree) headTree)

/-- `func (repo *Repository) Message() string` from `git/repository.go`:
the `Message` field of the HEAD commit, returned as stored (panic,
modelled `none`, when the commit is absent). -/
def Repository.Message (repo : Repository) : Option String :=
  match repo.repo.CommitObject repo.head.hash with
  | none => none
  | some commit => some commit.Message

/-- The body of the `iter.ForEach` closure in `Tags()` applied to one tag
reference: append the reference's short name when its hash equals HEAD's
hash. -/
def tagStep (headHash : Nat) (acc : List String) (reference : Reference) : List String :=
  if reference.hash = headHash then acc ++ [shortName reference.name] else acc

/-- `func (repo *Repository) Tags() []string` from `git/repository.go`:
iterate over all tag references, keep the short names of those whose
hash equals HEAD's hash, and sort the result. -/
def Repository.Tags (repo : Repository) : List String :=
  sortStrings (repo.repo.tagRefs.foldl (tagStep repo.head.hash) [])

/-- `type Status struct` from `git/status.go`. -/
structure Status where
  Branch : String
  Files : List String
  Message : String
  Tags : List String
deriving DecidableEq

/-- The `Reporter` capability interface of `git/repository.go`.  A value
of the interface is, for the read-only queries at hand, determined by
the four results its methods return. -/
structure Reporter where
  Branch : String
  Files : List String
  Message : String
  Tags : List String
deriving DecidableEq

/-- `func Report(reporter Reporter) Status` from `git/status.go`: the
`Status` literal built positionally from the four query calls. -/
def Report (reporter : Reporter) : Status :=
  ⟨reporter.Branch, reporter.Files, reporter.Message, reporter.Tags⟩

/-- State-passing form of `Branch()`.  The method body only reads
`repo.head`; it performs no go-git write call, so the receiver state is
returned unchanged next to the result. -/
def Repository.BranchS (repo : Repository) : String × Repository := (repo.Branch, repo)

/-- State-passing form of `Files()`.  The body only calls the read APIs
`CommitObject`, `Tree`, `Parents().Next()` and `Diff`; no write call
occurs, so the receiver state is returned unchanged. -/
def Repository.FilesS (repo : Repository) : Option (List String) × Repository :=
  (repo.Files, repo)

/-- State-passing form of `Message()`.  The body only calls the read API
`CommitObject`; the receiver state is returned unchanged. -/
def Repository.MessageS (repo : Repository) : Option String × Repository :=
  (repo.Message, repo)

/-- State-passing form of `Tags()`.  The body only calls the read APIs
`Tags()` (reference iteration) and `Hash()`; the receiver state is
returned unchanged. -/
def Repository.TagsS (repo : Repository) : List String × Repository := (repo.Tags, repo)

/-- State-passing form of `New`.  `git.PlainOpen` and `r.Head()` only read
the on-disk repository, so the filesystem is returned unchanged. -/
def NewS (fs : String → Option GitRepo) (path : String) :
    Except String Repository × (String → Option GitRepo) :=
  (New fs path, fs)

/-- State-passing form of `Report`: the four method calls of the body are
queries, so the reporter is returned unchanged. -/
def ReportS (r : Reporter) : Status × Reporter := (Report r, r)

/-! ## Concrete repositories used as witness inputs -/

/-- A one-file tree. -/
def sampleTree : Tree := [("file.txt", 1)]

/-- The same path with different blob contents. -/
def sampleTree2 : Tree := [("file.txt", 2)]

/-- A root commit (no parent), stored at hash 10. -/
def sampleCommitRoot : Commit := ⟨"initial commit\n", [], sampleTree⟩

/-- A commit whose only parent is the root commit, stored at hash 11. -/
def sampleCommitChild : Commit := ⟨"test commit\n", [10], sampleTree2⟩

/-- A commit whose message has surrounding whitespace, stored at hash 12. -/
def wsCommit : Commit := ⟨"  test commit \n\n", [], sampleTree⟩

/-- HEAD on branch `master` at the child commit. -/
def sampleHead : Reference := ⟨"refs/heads/master", 11⟩

/-- A small repository: two commits, one lightweight tag at HEAD. -/
def sampleRepo : GitRepo :=
  ⟨[(10, sampleCommitRoot), (11, sampleCommitChild)],
   [⟨"refs/tags/v1", 11⟩], [], some sampleHead⟩

/-- The `sampleRepo` opened. -/
def sampleRepository : Repository := ⟨sampleRepo, sampleHead⟩

/-- A repository whose HEAD commit is a root commit. -/
def rootRepository : Repository :=
  ⟨⟨[(10, sampleCommitRoot)], [], [], some ⟨"refs/heads/master", 10⟩⟩,
   ⟨"refs/heads/master", 10⟩⟩

/-- A repository whose HEAD commit has whitespace around its message. -/
def wsRepository : Repository :=
  ⟨⟨[(12, wsCommit)], [], [], some ⟨"refs/heads/master", 12⟩⟩,
   ⟨"refs/heads/master", 12⟩⟩

/-- A repository with an annotated tag: the tag reference `refs/tags/ann`
points at tag object 20, which in turn targets the HEAD commit 11. -/
def annRepository : Repository :=
  ⟨⟨[(11, sampleCommitChild)], [⟨"refs/tags/ann", 20⟩], [(20, ⟨11⟩)],
    some ⟨"refs/heads/master", 11⟩⟩,
   ⟨"refs/heads/master", 11⟩⟩

/-- A one-repository filesystem, for exercising `New`. -/
def sampleFS : String → Option GitRepo :=
  fun path => if path = "/repo" then some sampleRepo else none

/-! ## Helper lemmas -/

theorem mem_insertName {s : List String} {n a : String} :
    a ∈ insertName s n ↔ a ∈ s ∨ a = n := by
  unfold insertName
  split
  · rename_i h
    constructor
    · exact Or.inl
    · rintro (ha | rfl)
      · exact ha
      · exact h
  · simp

theorem nodup_insertName {s : List String} {n : String} (h : s.Nodup) :
    (insertName s n).Nodup := by
  unfold insertName
  split
  · exact h
  · rename_i hn
    simpa [List.nodup_append] using ⟨h, fun ha => hn ha⟩

theorem mem_addChange {s : List String} {c : Change} {a : String} :
    a ∈ addChange s c ↔ a ∈ s ∨ c.fromFile = some a ∨ c.toFile = some a := by
  unfold addChange
  rcases c with ⟨f, t⟩
  cases f <;> cases t <;> simp [mem_insertName] <;> constructor <;>
    · rintro h
      rcases h with h | h <;> try rcases h with h | h
      all_goals simp_all
      all_goals tauto

theorem nodup_addChange {s : List String} {c : Change} (h : s.Nodup) :
    (addChange s c).Nodup := by
  unfold addChange
  rcases c with ⟨f, t⟩
  cases f <;> cases t <;> simp <;> solve
    | exact h
    | exact nodup_insertName h
    | exact nodup_insertName (nodup_insertName h)

theorem mem_foldl_addChange (l : List Change) (acc : List String) (a : String) :
    a ∈ l.foldl addChange acc ↔
      a ∈ acc ∨ ∃ c ∈ l, c.fromFile = some a ∨ c.toFile = some a := by
  induction l generalizing acc with
  | nil => simp
  | cons c l ih =>
    rw [List.foldl_cons, ih, mem_addChange]
    constructor
    · rintro ((h | h | h) | ⟨c', hc', h⟩)
      · exact Or.inl h
      · exact Or.inr ⟨c, List.mem_cons_self c l, Or.inl h⟩
      · exact Or.inr ⟨c, List.mem_cons_self c l, Or.inr h⟩
      · exact Or.inr ⟨c', List.mem_cons_of_mem c hc', h⟩
    · rintro (h | ⟨c', hc', h⟩)
      · exact Or.inl (Or.inl h)
      · rcases List.mem_cons.mp hc' with rfl | hc'
        · exact Or.inl (Or.inr h)
        · exact Or.inr ⟨c', hc', h⟩

theorem nodup_foldl_addChange (l : List Change) (acc : List String)
    (h : acc.Nodup) : (l.foldl addChange acc).Nodup := by
  induction l generalizing acc with
  | nil => exact h
  | cons c l ih => exact ih _ (nodup_addChange h)

theorem treeLookup_isSome {t : Tree} {p : String} :
    (treeLookup t p).isSome = true ↔ p ∈ t.map Prod.fst := by
  unfold treeLookup
  induction t with
  | nil => simp
  | cons e t ih =>
    rcases e with ⟨q, v⟩
    simp only [List.lookup, List.map_cons, List.mem_cons]
    cases hb : p == q
    · have hne : ¬p = q := by simpa using hb
      simp [hb, ih, hne]
    · have heq : p = q := by simpa using hb
      simp [hb, heq]

theorem change_names_diffTrees {t1 t2 : Tree} {a : String} :
    (∃ c ∈ diffTrees t1 t2, c.fromFile = some a ∨ c.toFile = some a) ↔
      treeLookup t1 a ≠ treeLookup t2 a := by
  unfold diffTrees
  constructor
  · rintro ⟨c, hc, hname⟩
    rcases List.mem_filterMap.mp hc with ⟨p, _, hp⟩
    by_cases heq : treeLookup t1 p = treeLookup t2 p
    · rw [if_pos heq] at hp
      exact Option.noConfusion hp
    · rw [if_neg heq] at hp
      have hc' := Option.some_inj.mp hp
      subst hc'
      have hpa : p = a := by
        rcases hname with hname | hname <;> dsimp at hname <;> split at hname <;>
          simp_all
      exact hpa ▸ heq
  · intro hne
    refine ⟨⟨if (treeLookup t1 a).isSome then some a else none,
             if (treeLookup t2 a).isSome then some a else none⟩,
           List.mem_filterMap.mpr ⟨a, ?_, by rw [if_neg hne]⟩, ?_⟩
    · rw [List.mem_dedup, List.mem_append, ← treeLookup_isSome, ← treeLookup_isSome]
      cases h1 : treeLookup t1 a with
      | none =>
        cases h2 : treeLookup t2 a with
        | none => exact absurd (h1.trans h2.symm) hne
        | some v => simp
      | some v => simp
    · by_cases h1 : (treeLookup t1 a).isSome = true
      · exact Or.inl (by simp [h1])
      · have h2 : (treeLookup t2 a).isSome = true := by
          rcases ho1 : treeLookup t1 a with _ | v1
          · rcases ho2 : treeLookup t2 a with _ | v2
            · exact absurd (ho1.trans ho2.symm) hne
            · simp
          · exact absurd (by simp [ho1]) h1
        exact Or.inr (by simp [h1, h2])

theorem mem_sortStrings {l : List String} {a : String} :
    a ∈ sortStrings l ↔ a ∈ l :=
  List.mem_insertionSort _

theorem sorted_sortStrings (l : List String) :
    (sortStrings l).Sorted (· ≤ ·) :=
  List.sorted_insertionSort _ l

theorem nodup_sortStrings {l : List String} (h : l.Nodup) :
    (sortStrings l).Nodup :=
  (List.perm_insertionSort _ l).nodup_iff.mpr h

theorem mem_filesTouched_some {t1 t2 : Tree} {a : String} :
    a ∈ filesTouched (some t1) t2 ↔ treeLookup t1 a ≠ treeLookup t2 a := by
  unfold filesTouched
  rw [mem_sortStrings, mem_foldl_addChange]
  simp [change_names_diffTrees]

theorem mem_filesTouched_none {t : Tree} {a : String} :
    a ∈ filesTouched none t ↔ a ∈ t.map Prod.fst := by
  unfold filesTouched
  rw [mem_sortStrings, mem_foldl_addChange]
  simp only [List.not_mem_nil, false_or]
  rw [change_names_diffTrees, ← treeLookup_isSome]
  have h0 : treeLookup ([] : Tree) a = none := rfl
  rw [h0, Ne, ← Option.ne_none_iff_isSome, Ne]

theorem sorted_filesTouched (parent : Option Tree) (child : Tree) :
    (filesTouched parent child).Sorted (· ≤ ·) :=
  sorted_sortStrings _

theorem nodup_filesTouched (parent : Option Tree) (child : Tree) :
    (filesTouched parent child).Nodup :=
  nodup_sortStrings (nodup_foldl_addChange _ _ List.nodup_nil)

theorem foldl_tagStep (hh : Nat) (l : List Reference) (acc : List String) :
    l.foldl (tagStep hh) acc =
      acc ++ (l.filter fun r => r.hash == hh).map fun r => shortName r.name := by
  induction l generalizing acc with
  | nil => simp
  | cons r l ih =>
    rw [List.foldl_cons, ih]
    unfold tagStep
    by_cases h : r.hash = hh
    · rw [if_pos h, List.filter_cons_of_pos (by simpa using h)]
      simp
    · rw [if_neg h, List.filter_cons_of_neg (by simpa using h)]

theorem tags_eq (repo : Repository) :
    repo.Tags = sortStrings
      (((repo.repo.tagRefs.filter fun r => r.hash == repo.head.hash).map
        fun r => shortName r.name)) := by
  unfold Repository.Tags
  rw [foldl_tagStep]
  simp

theorem mem_Tags {repo : Repository} {s : String} :
    s ∈ repo.Tags ↔
      ∃ r ∈ repo.repo.tagRefs, r.hash = repo.head.hash ∧ shortName r.name = s := by
  rw [tags_eq, mem_sortStrings]
  simp only [List.mem_map, List.mem_filter, beq_iff_eq]
  constructor
  · rintro ⟨r, ⟨hr, hh⟩, hs⟩
    exact ⟨r, hr, hh, hs⟩
  · rintro ⟨r, hr, hh, hs⟩
    exact ⟨r, ⟨hr, hh⟩, hs⟩

theorem sorted_Tags (repo : Repository) : repo.Tags.Sorted (· ≤ ·) :=
  sorted_sortStrings _

theorem scanRule_self_append (pre rest : List Char) :
    scanRule pre (pre ++ rest) = if rest = [] then none else some rest := by
  induction pre with
  | nil => cases rest <;> simp [scanRule]
  | cons p ps ih => simpa [scanRule] using ih

theorem shortName_tagref (rest : String) (h : rest ≠ "") :
    shortName ("refs/tags/" ++ rest) = rest := by
  rcases rest with ⟨rd⟩
  have hne : rd ≠ [] := fun hnil => h (by rw [hnil])
  show shortName (String.mk ("refs/tags/".data ++ rd)) = String.mk rd
  unfold shortName
  have h2 : scanRule "refs/tags/".data ("refs/tags/".data ++ rd) = some rd := by
    rw [scanRule_self_append]
    simp [hne]
  have h3 : scanRule "refs/heads/".data ("refs/tags/".data ++ rd) = none := by
    simp [scanRule,
      show "refs/heads/".data = ['r', 'e', 'f', 's', '/', 'h', 'e', 'a', 'd', 's', '/'] from rfl,
      show "refs/tags/".data = ['r', 'e', 'f', 's', '/', 't', 'a', 'g', 's', '/'] from rfl]
  have h4 : scanRule "refs/remotes/".data ("refs/tags/".data ++ rd) = none := by
    simp [scanRule,
      show "refs/remotes/".data
        = ['r', 'e', 'f', 's', '/', 'r', 'e', 'm', 'o', 't', 'e', 's', '/'] from rfl,
      show "refs/tags/".data = ['r', 'e', 'f', 's', '/', 't', 'a', 'g', 's', '/'] from rfl]
  simp only [h2, h3, h4]

theorem files_eq_cases (repo : Repository) (l : List String)
    (hf : repo.Files = some l) : ∃ parent child, l = filesTouched parent child := by
  unfold Repository.Files at hf
  split at hf
  · exact Option.noConfusion hf
  · rename_i headObject hobj
    dsimp only at hf
    split at hf
    · exact ⟨none, headObject.tree, (Option.some_inj.mp hf).symm⟩
    · split at hf
      · exact Option.noConfusion hf
      · rename_i parentObject hpo
        exact ⟨some parentObject.tree, headObject.tree, (Option.some_inj.mp hf).symm⟩

/-! ## The claims -/

/-- C1: for every opened repository handle (with a valid HEAD reference
name, i.e. one whose short form is nonempty when it is a branch),
`Branch()` returns the empty string exactly when the HEAD reference is
not a named branch, and returns the branch's short name when HEAD is a
named branch. -/
theorem branch_empty_iff_detached (repo : Repository)
    (hs : isBranchName repo.head.name = true → shortName repo.head.name ≠ "") :
    (repo.Branch = "" ↔ isBranchName repo.head.name = false)
    ∧ (isBranchName repo.head.name = true → repo.Branch = shortName repo.head.name) := by
  unfold Repository.Branch
  cases hb : isBranchName repo.head.name
  · simp
  · simp [hs hb]

/-- Witness for C1 on a repository checked out on branch `master`. -/
theorem branch_empty_iff_detached_witness :
    (sampleRepository.Branch = "" ↔ isBranchName sampleRepository.head.name = false)
    ∧ (isBranchName sampleRepository.head.name = true →
        sampleRepository.Branch = shortName sampleRepository.head.name) :=
  branch_empty_iff_detached sampleRepository (by decide)

/-- C2: for every opened repository handle whose HEAD commit has a parent
(present in the object store), `Files()` succeeds and returns exactly
the paths at which the parent commit's tree and the HEAD commit's tree
differ — the union of pre-image and post-image paths of every change —
sorted ascending. -/
theorem files_diff_parent (repo : Repository) (c pc : Commit) (ph : Nat)
    (rest : List Nat)
    (hc : repo.repo.CommitObject repo.head.hash = some c)
    (hps : c.ParentHashes = ph :: rest)
    (hpc : repo.repo.CommitObject ph = some pc) :
    ∃ l, repo.Files = some l
      ∧ (∀ p, p ∈ l ↔ treeLookup pc.tree p ≠ treeLookup c.tree p)
      ∧ l.Sorted (· ≤ ·) := by
  refine ⟨filesTouched (some pc.tree) c.tree, ?_, fun p => mem_filesTouched_some,
    sorted_filesTouched _ _⟩
  simp [Repository.Files, hc, hps, hpc]

/-- Witness for C2 on a two-commit repository that rewrites `file.txt`. -/
theorem files_diff_parent_witness :
    ∃ l, sampleRepository.Files = some l
      ∧ (∀ p, p ∈ l ↔
          treeLookup sampleCommitRoot.tree p ≠ treeLookup sampleCommitChild.tree p)
      ∧ l.Sorted (· ≤ ·) :=
  files_diff_parent sampleRepository sampleCommitChild sampleCommitRoot 10 []
    (by decide) (by decide) (by decide)

/-- C4: for every opened repository handle, a tag name is an element of
`Tags()` exactly when some tag reference with that short name points at
(has the hash of) the HEAD commit, and the list is sorted ascending. -/
theorem tags_iff_points_at_head (repo : Repository) :
    (∀ s, s ∈ repo.Tags ↔
      ∃ r ∈ repo.repo.tagRefs, r.hash = repo.head.hash ∧ shortName r.name = s)
    ∧ repo.Tags.Sorted (· ≤ ·) :=
  ⟨fun _ => mem_Tags, sorted_Tags repo⟩

/-- C5: for every opened repository handle whose HEAD commit exists,
`Message()` returns the HEAD commit's message exactly as stored, with no
whitespace removed. -/
theorem message_as_stored (repo : Repository) (c : Commit)
    (hc : repo.repo.CommitObject repo.head.hash = some c) :
    repo.Message = some c.Message := by
  simp [Repository.Message, hc]

/-- Witness for C5 on a commit whose message has leading and trailing
whitespace: the message comes back verbatim. -/
theorem message_as_stored_witness :
    wsRepository.Message = some "  test commit \n\n" :=
  message_as_stored wsRepository wsCommit (by decide)

/-- C6: for every Reporter, `Report` returns the `Status` whose four
fields are, in order, the reporter's `Branch()`, `Files()`, `Message()`
and `Tags()` results, and nothing else. -/
theorem report_assembles_queries (r : Reporter) :
    Report r = ⟨r.Branch, r.Files, r.Message, r.Tags⟩
    ∧ (Report r).Branch = r.Branch ∧ (Report r).Files = r.Files
    ∧ (Report r).Message = r.Message ∧ (Report r).Tags = r.Tags :=
  ⟨rfl, rfl, rfl, rfl, rfl⟩

/-- C7: `New` succeeds exactly when the path opens as a repository whose
HEAD resolves; in that case the handle holds the opened repository and
its resolved HEAD reference, and otherwise an error is returned. -/
theorem new_ok_iff (fs : String → Option GitRepo) (path : String) :
    ((∃ h, New fs path = Except.ok h) ↔
      ∃ r ref, fs path = some r ∧ r.headRef = some ref)
    ∧ (∀ r ref, fs path = some r → r.headRef = some ref →
        New fs path = Except.ok ⟨r, ref⟩)
    ∧ ((∃ e, New fs path = Except.error e) ↔
      fs path = none ∨ ∃ r, fs path = some r ∧ r.headRef = none) := by
  unfold New
  rcases hfs : fs path with _ | r
  · simp
  · rcases hh : r.headRef with _ | ref
    · simp [hh]
      rintro r1 ref rfl
      simp [hh]
    · simp [hh]
      rintro r1 ref1 rfl h
      rw [hh] at h
      exact ⟨rfl, Option.some_inj.mp h⟩

/-- Witness for C7: opening `/repo` on the one-repository filesystem
yields the handle of `sampleRepo` with its HEAD reference. -/
theorem new_ok_iff_witness :
    New sampleFS "/repo" = Except.ok ⟨sampleRepo, sampleHead⟩ :=
  (new_ok_iff sampleFS "/repo").2.1 sampleRepo sampleHead (by decide) (by decide)

/-- C8: none of the operations mutates repository state: the
state-passing forms of `New`, `Branch`, `Files`, `Message`, `Tags` and
`Report` all return their input state unchanged, and a query repeated on
the state left behind by another query observes the same result. -/
theorem queries_read_only (repo : Repository) (fs : String → Option GitRepo)
    (path : String) (r : Reporter) :
    repo.BranchS.2 = repo ∧ repo.FilesS.2 = repo ∧ repo.MessageS.2 = repo
    ∧ repo.TagsS.2 = repo ∧ (NewS fs path).2 = fs ∧ (ReportS r).2 = r
    ∧ (repo.BranchS.2).Branch = repo.Branch
    ∧ (repo.BranchS.2).Files = repo.Files
    ∧ (repo.FilesS.2).Files = repo.Files
    ∧ (repo.MessageS.2).Message = repo.Message
    ∧ (repo.TagsS.2).Tags = repo.Tags :=
  ⟨rfl, rfl, rfl, rfl, rfl, rfl, rfl, rfl, rfl, rfl, rfl⟩

/-- C9: for every opened repository handle whose HEAD commit is a root
commit (no parent), `Files()` succeeds and returns exactly the file
paths present in the HEAD commit's tree, sorted ascending. -/
theorem files_root_commit (repo : Repository) (c : Commit)
    (hc : repo.repo.CommitObject repo.head.hash = some c)
    (hps : c.ParentHashes = []) :
    ∃ l, repo.Files = some l
      ∧ (∀ p, p ∈ l ↔ p ∈ c.tree.map Prod.fst)
      ∧ l.Sorted (· ≤ ·) := by
  refine ⟨filesTouched none c.tree, ?_, fun p => mem_filesTouched_none,
    sorted_filesTouched _ _⟩
  simp [Repository.Files, hc, hps]

/-- Witness for C9 on a repository whose HEAD is the root commit. -/
theorem files_root_commit_witness :
    ∃ l, rootRepository.Files = some l
      ∧ (∀ p, p ∈ l ↔ p ∈ sampleCommitRoot.tree.map Prod.fst)
      ∧ l.Sorted (· ≤ ·) :=
  files_root_commit rootRepository sampleCommitRoot (by decide) (by decide)

/-- C10: a tag reference whose own hash differs from the HEAD commit's
hash — as with an annotated tag, whose reference points at a tag object
even when that tag object targets HEAD — contributes nothing to
`Tags()`: its short name is absent unless some other tag reference with
the same short name points directly at HEAD. -/
theorem annotated_tags_excluded (repo : Repository) (r : Reference) (t : TagObject)
    (hr : r ∈ repo.repo.tagRefs)
    (ht : repo.repo.tagObjects.lookup r.hash = some t)
    (htarget : t.target = repo.head.hash)
    (hne : r.hash ≠ repo.head.hash)
    (hother : ∀ r2 ∈ repo.repo.tagRefs, r2.hash = repo.head.hash →
        shortName r2.name ≠ shortName r.name) :
    shortName r.name ∉ repo.Tags := by
  intro hmem
  rcases mem_Tags.mp hmem with ⟨r2, hr2, hh2, hs2⟩
  exact hother r2 hr2 hh2 hs2

/-- Witness for C10: the annotated tag `ann` (reference at tag object 20,
which targets HEAD commit 11) is not listed by `Tags()`. -/
theorem annotated_tags_excluded_witness :
    shortName (Reference.mk "refs/tags/ann" 20).name ∉ annRepository.Tags :=
  annotated_tags_excluded annRepository ⟨"refs/tags/ann", 20⟩ ⟨11⟩
    (by decide) (by decide) (by decide) (by decide) (by decide)

/-- C3: for every opened repository handle — with the invariants go-git
guarantees for every repository it opens: reference names are pairwise
distinct, and each reference produced by the tag iterator is named
`refs/tags/<name>` with a nonempty `<name>` — the list returned by
`Files()` (when it succeeds) and the list returned by `Tags()` are each
sorted in ascending lexicographic order and contain no duplicates. -/
theorem files_tags_sorted_nodup (repo : Repository) (l : List String)
    (hf : repo.Files = some l)
    (hnames : (repo.repo.tagRefs.map fun r => r.name).Nodup)
    (htags : ∀ r ∈ repo.repo.tagRefs, ∃ rest : String,
        r.name = "refs/tags/" ++ rest ∧ rest ≠ "") :
    l.Sorted (· ≤ ·) ∧ l.Nodup
    ∧ repo.Tags.Sorted (· ≤ ·) ∧ repo.Tags.Nodup := by
  rcases files_eq_cases repo l hf with ⟨parent, child, rfl⟩
  refine ⟨sorted_filesTouched _ _, nodup_filesTouched _ _, sorted_Tags repo, ?_⟩
  have hrefs : repo.repo.tagRefs.Nodup := hnames.of_map
  have hinj := List.inj_on_of_nodup_map hnames
  have key : ((repo.repo.tagRefs.filter fun r => r.hash == repo.head.hash).map
      fun r => shortName r.name).Nodup := by
    refine List.Nodup.map_on ?_ (hrefs.filter _)
    intro x hx y hy hxy
    have hx' := List.mem_of_mem_filter hx
    have hy' := List.mem_of_mem_filter hy
    rcases htags x hx' with ⟨rx, hxn, hxne⟩
    rcases htags y hy' with ⟨ry, hyn, hyne⟩
    rw [hxn, shortName_tagref rx hxne, hyn, shortName_tagref ry hyne] at hxy
    exact hinj hx' hy' (by rw [hxn, hyn, hxy])
  rw [tags_eq]
  exact nodup_sortStrings key

/-- Witness for C3 on the two-commit sample repository with one tag at
HEAD. -/
theorem files_tags_sorted_nodup_witness :
    (filesTouched (some sampleCommitRoot.tree) sampleCommitChild.tree).Sorted (· ≤ ·)
    ∧ (filesTouched (some sampleCommitRoot.tree) sampleCommitChild.tree).Nodup
    ∧ sampleRepository.Tags.Sorted (· ≤ ·) ∧ sampleRepository.Tags.Nodup :=
  files_tags_sorted_nodup sampleRepository
    (filesTouched (some sampleCommitRoot.tree) sampleCommitChild.tree)
    (by rfl) (by decide)
    (by
      intro r hr
      have hr' : r = ⟨"refs/tags/v1", 11⟩ := by
        simpa [sampleRepository, sampleRepo] using hr
      subst hr'
      exact ⟨"v1", by decide, by decide⟩)

end Pull
